import Mathlib

/-!
Verification development for the line-parsing engine of the
arknights-story-exporter repository (src/parsers/*.py and
src/parse_text_to_docx.py), as a shallow embedding in Lean 4.

Python strings are modelled as Lean `String` (a wrapper around `List Char`);
Python regular expressions are modelled by hand-written matchers that follow
the semantics of the concrete pattern used at each call site.  Stateful code
is modelled by explicit state passing.  Fallible resource fetching is
modelled by an `Except`-valued fetch function.
-/

namespace StoryExport

/-- Python `str.isspace` / `str.strip()` whitespace set (Unicode whitespace:
TAB..CR, the ASCII space, FS..US, NEL, NBSP, ogham space, the U+2000..200A
range, LS, PS, NNBSP, MMSP and ideographic space). -/
def pyIsSpace (c : Char) : Bool :=
  let n := c.toNat
  (9 ≤ n && n ≤ 13) || n == 32 || (28 ≤ n && n ≤ 31) || n == 133 || n == 160 ||
  n == 5760 || (8192 ≤ n && n ≤ 8202) || n == 8232 || n == 8233 || n == 8239 ||
  n == 8287 || n == 12288

/-- Strip leading and trailing whitespace from a character list, as Python
`str.strip()` does. -/
def pyStripL (l : List Char) : List Char :=
  ((l.dropWhile pyIsSpace).reverse.dropWhile pyIsSpace).reverse

/-- Python `line.strip()` (used by `ParserRegistry.parse_line`). -/
def pyStrip (s : String) : String := ⟨pyStripL s.data⟩

/-- Python `raw.rstrip('\n')` (used by `DocumentAssembler.parse_lines` when it
records a skipped line): remove every trailing newline character. -/
def rstripNewlines (s : String) : String :=
  ⟨(s.data.reverse.dropWhile (fun c => c == '\n')).reverse⟩

/-- Python `s.strip(cs)`: remove every leading and trailing character that
belongs to the set `cs` (used with `'<>'` and `'[]'` by the sound rule). -/
def stripSet (cs : List Char) (l : List Char) : List Char :=
  ((l.dropWhile (fun c => cs.contains c)).reverse.dropWhile
    (fun c => cs.contains c)).reverse

/-- Python `line.startswith(c)` for a single character. -/
def startsWithChar (c : Char) (s : String) : Bool :=
  match s.data with
  | [] => false
  | d :: _ => d == c

/-- Python `line.endswith(c)` for a single character. -/
def endsWithChar (c : Char) (s : String) : Bool :=
  s.data.getLast? == some c

/-- ASCII lowercasing of a string, modelling Python `str.lower()` on the
ASCII directive alphabet that the parsers compare against. -/
def asciiLowerStr (s : String) : String := ⟨s.data.map Char.toLower⟩

/-- Match a literal pattern at the head of `s` (case-insensitively when
`ci` is true), returning the rest of `s` on success. -/
def litAt (ci : Bool) : List Char → List Char → Option (List Char)
  | [], s => some s
  | _ :: _, [] => none
  | p :: ps, c :: cs =>
    if (if ci then p.toLower == c.toLower else p == c) then litAt ci ps cs
    else none

/-- Python `pat in line` / `str.startswith(pat)` building block. -/
def startsWithStr (pat s : String) : Bool := (litAt false pat.data s.data).isSome

/-- Leftmost-position search combinator: the semantics of `re.search`, trying
the position matcher `f` at every start position from the left. -/
def searchO {α : Type} (f : List Char → Option α) : List Char → Option α
  | [] => f []
  | s@(_ :: rest) =>
    match f s with
    | some v => some v
    | none => searchO f rest

/-- Boolean variant of `searchO`. -/
def searchB (p : List Char → Bool) : List Char → Bool
  | [] => p []
  | s@(_ :: rest) => p s || searchB p rest

/-- Python substring containment `sub in line`. -/
def containsSub (sub line : String) : Bool :=
  searchB (fun s => (litAt false sub.data s).isSome) line.data

/-- Matcher for the regex fragment `"([^"]+)"`: an opening double quote, a
nonempty run of non-quote characters (the capture), and a closing quote.
Returns the capture and the remainder. -/
def quotedRun (s : List Char) : Option (List Char × List Char) :=
  match s with
  | '"' :: rest =>
    let run := rest.takeWhile (fun c => c != '"')
    let rem := rest.dropWhile (fun c => c != '"')
    match rem with
    | '"' :: rem2 => if run.isEmpty then none else some (run, rem2)
    | _ => none
  | _ => none

/-- Matcher for the regex fragment `\s*=\s*"([^"]+)"`. -/
def eqThenQuoted (s : List Char) : Option (List Char × List Char) :=
  match s.dropWhile pyIsSpace with
  | '=' :: s2 => quotedRun (s2.dropWhile pyIsSpace)
  | _ => none

/-! ## Sound rule (src/parsers/sound_parser.py) and sound-text emission
(`add_sound_effect` in src/parse_text_to_docx.py, lines 278-294) -/

/-- CJK detection: the regex `[一-鿿]` used by `add_sound_effect`. -/
def isCJK (c : Char) : Bool := 19968 ≤ c.toNat && c.toNat ≤ 40959

/-- Character class of the resource-id regex in `add_sound_effect`: ASCII
letters, digits, underscore, hyphen, slash and dollar. -/
def isResIdChar (c : Char) : Bool :=
  (65 ≤ c.toNat && c.toNat ≤ 90) || (97 ≤ c.toNat && c.toNat ≤ 122) ||
  (48 ≤ c.toNat && c.toNat ≤ 57) || c == '_' || c == '-' || c == '/' || c == '$'

/-- Core of the anchored resource-id regex of `add_sound_effect` (an optional
dollar prefix then one or more resource-id characters) without the
end-of-string subtlety: either an optional leading dollar followed by a
nonempty run of class characters, or a nonempty run of class characters. -/
def resIdCore (l : List Char) : Bool :=
  (match l with
   | c :: rest => c == '$' && !rest.isEmpty && rest.all isResIdChar
   | [] => false) ||
  (!l.isEmpty && l.all isResIdChar)

/-- Full semantics of the resource-id regex match in `add_sound_effect`:
Python `$` also matches just before one trailing newline. -/
def resourceIdMatch (s : String) : Bool :=
  resIdCore s.data ||
  (s.data.getLast? == some '\n' && resIdCore s.data.dropLast)

/-- `add_sound_effect(doc, text)` (src/parse_text_to_docx.py lines 278-294):
returns the emitted stage-cue paragraph text, or `none` when the text is a
bare resource id and is suppressed.  The code first renders any text with a
CJK character, then suppresses resource ids, then renders everything else. -/
def addSoundEffect (text : String) : Option String :=
  if text.data.any isCJK then some ("<" ++ text ++ ">")
  else if resourceIdMatch text then none
  else some ("<" ++ text ++ ">")

/-- The seven case-sensitive substrings tested by `SoundParser.can_parse`
(src/parsers/sound_parser.py lines 54-56), in source order. -/
def soundCandidates : List String :=
  ["PlaySound", "PlayMusic", "StopSound", "stopmusic", "StopMusic",
   "playsound", "playmusic"]

/-- The `skip_directives` set built in `SoundParser.__init__`
(src/parsers/sound_parser.py lines 36-41). -/
def soundSkipDirectives : List String :=
  ["stopsound", "stopmusic", "soundvolume", "blocker", "delay",
   "background", "image", "imagetween", "curtain", "camerashake",
   "cameraeffect", "focusout", "bgeffect", "charslot", "dialog",
   "subtitle", "animtextclean", "animtext", "playsound", "playmusic"]

/-- The fields stored by `SoundParser.__init__` (lines 25-41): `enabled`,
`priority`, the `skip_resource_ids` flag and the `skip_directives` set. -/
structure SoundRule where
  enabled : Bool
  priority : Nat
  skipResourceIds : Bool
  skipDirectives : List String

/-- `SoundParser(enabled, priority, skip_resource_ids)` constructor. -/
def mkSoundRule (enabled : Bool) (priority : Nat) (skipResourceIds : Bool) :
    SoundRule :=
  ⟨enabled, priority, skipResourceIds, soundSkipDirectives⟩

/-- `SoundParser.can_parse` (lines 43-63): a bracketed line containing one of
the seven candidate substrings (exact case), or an angle-bracketed stage
direction.  The method reads no instance attribute. -/
def soundRuleCanParse (p : SoundRule) (line : String) : Bool :=
  (startsWithChar '[' line && soundCandidates.any (fun c => containsSub c line)) ||
  (startsWithChar '<' line && endsWithChar '>' line)

/-- The regex `key\s*=\s*"?([^",\)\]]+)"?` tried at one position; after an
optional opening quote the capture is a nonempty greedy run of characters
outside `",)]` (when the quote is present but the run would be empty, the
backtracking alternative without the quote also fails because `"` is itself
excluded from the class). -/
def keyAt (s : List Char) : Option (List Char) :=
  (litAt false "key".data s).bind (fun r =>
    match r.dropWhile pyIsSpace with
    | '=' :: r2 =>
      let r3 := r2.dropWhile pyIsSpace
      let r4 := match r3 with
        | '"' :: t => t
        | _ => r3
      let run := r4.takeWhile
        (fun c => c != '"' && c != ',' && c != ')' && c != ']')
      if run.isEmpty then none else some run
    | _ => none)

/-- Word character of the command regex, `[A-Za-z0-9_]`. -/
def isWordChar (c : Char) : Bool :=
  (65 ≤ c.toNat && c.toNat ≤ 90) || (97 ≤ c.toNat && c.toNat ≤ 122) ||
  (48 ≤ c.toNat && c.toNat ≤ 57) || c == '_'

/-- First character of the command regex, `[A-Za-z_]`. -/
def isWordStart (c : Char) : Bool :=
  (65 ≤ c.toNat && c.toNat ≤ 90) || (97 ≤ c.toNat && c.toNat ≤ 122) || c == '_'

/-- `re.match(r'\[?\s*([A-Za-z_][A-Za-z0-9_]*)', line)`: an optional opening
bracket, optional whitespace, then an identifier (the capture).  When the
bracket is consumed but no identifier follows, the alternative without the
bracket fails too, since the bracket itself is neither whitespace nor an
identifier character. -/
def cmdAt (l : List Char) : Option (List Char) :=
  let t := match l with
    | '[' :: rest => rest
    | _ => l
  match t.dropWhile pyIsSpace with
  | c :: rest =>
    if isWordStart c then some (c :: rest.takeWhile isWordChar) else none
  | [] => none

/-- `SoundParser.parse` (src/parsers/sound_parser.py lines 65-104), returning
the handled flag and the list of stage-cue paragraphs written to the
document.  An angle-bracketed line is stripped of its angle brackets and
emitted through `add_sound_effect`; a bracketed line first tries the `key=`
regex, then the skip-directive set, then falls back to emitting the bracket
contents; any other line is unhandled. -/
def soundRuleParse (p : SoundRule) (line : String) : Bool × List String :=
  if startsWithChar '<' line && endsWithChar '>' line then
    (true, (addSoundEffect ⟨stripSet ['<', '>'] line.data⟩).toList)
  else if startsWithChar '[' line then
    match searchO keyAt line.data with
    | some key => (true, (addSoundEffect ⟨key⟩).toList)
    | none =>
      match cmdAt line.data with
      | some cmd =>
        if p.skipDirectives.contains ⟨cmd.map Char.toLower⟩ then (true, [])
        else (true, (addSoundEffect ⟨stripSet ['[', ']'] line.data⟩).toList)
      | none => (true, (addSoundEffect ⟨stripSet ['[', ']'] line.data⟩).toList)
  else (false, [])

/-! ## The other directive rules (src/parsers/) -/

/-- `ControlParser.can_parse` (src/parsers/control_parser.py lines 33-49):
the bare separator, or a lowercased structural-tag head. -/
def controlCanParse (line : String) : Bool :=
  line == "#" || startsWithStr "[dialog]" (asciiLowerStr line) ||
  startsWithStr "[charslot]" (asciiLowerStr line) ||
  startsWithStr "[background]" (asciiLowerStr line)

/-- Position matcher for the image regex of `ImageParser`
(case-insensitive `Image(image` then an equals sign with optional
whitespace and a quoted nonempty capture). -/
def imageAt (s : List Char) : Option (List Char) :=
  (litAt true "image(image".data s).bind (fun r => (eqThenQuoted r).map Prod.fst)

/-- `self.pattern.search(line)` of `ImageParser`, returning group 1. -/
def imageFind (line : String) : Option String :=
  (searchO imageAt line.data).map List.asString

/-- `ImageParser.can_parse` (src/parsers/image_parser.py line 54). -/
def imageCanParse (line : String) : Bool := (imageFind line).isSome

/-- Position matcher for the second half of the decision regex:
case-insensitive `values` then an equals sign and a quoted capture. -/
def valuesHit (s : List Char) : Bool :=
  ((litAt true "values".data s).bind eqThenQuoted).isSome

/-- Scan for `p` after a lazy dot-star that cannot cross a newline
(the decision regex has no DOTALL flag). -/
def scanNoNL (p : List Char → Bool) : List Char → Bool
  | [] => p []
  | s@(c :: rest) => p s || (c != '\n' && scanNoNL p rest)

/-- Position matcher for the decision regex of `DecisionParser`
(src/parsers/decision_parser.py lines 30-33): case-insensitive
`Decision(options` with a quoted capture, a lazy gap, then `values`
with a quoted capture. -/
def decisionAt (s : List Char) : Bool :=
  match litAt true "decision(options".data s with
  | none => false
  | some r =>
    match eqThenQuoted r with
    | none => false
    | some (_, rest) => scanNoNL valuesHit rest

/-- `DecisionParser.can_parse` (line 56). -/
def decisionCanParse (line : String) : Bool := searchB decisionAt line.data

/-- Position matcher for the predicate regex of `PredicateParser`
(src/parsers/predicate_parser.py line 30). -/
def predicateAt (s : List Char) : Bool :=
  ((litAt true "predicate(references".data s).bind eqThenQuoted).isSome

/-- `PredicateParser.can_parse` (line 43). -/
def predicateCanParse (line : String) : Bool := searchB predicateAt line.data

/-- Position matcher for the scene regex of `SceneParser`
(src/parsers/scene_parser.py line 29): the literal `<p=1>` tag, a nonempty
run free of `<` and newline, the literal `<p=2>` tag, then another such
run. -/
def sceneAt (s : List Char) : Bool :=
  match litAt false "<p=1>".data s with
  | none => false
  | some r =>
    let run := r.takeWhile (fun c => c != '<' && c != '\n')
    let rem := r.dropWhile (fun c => c != '<' && c != '\n')
    !run.isEmpty &&
      (match litAt false "<p=2>".data rem with
       | none => false
       | some r2 => !(r2.takeWhile (fun c => c != '<' && c != '\n')).isEmpty)

/-- `SceneParser.can_parse` (line 41). -/
def sceneCanParse (line : String) : Bool := searchB sceneAt line.data

/-- Position matcher for the subtitle regex of `SubtitleParser`
(src/parsers/subtitle_parser.py line 29), case-sensitive. -/
def subtitleAt (s : List Char) : Bool :=
  ((litAt false "Subtitle(text".data s).bind eqThenQuoted).isSome

/-- `SubtitleParser.can_parse` (line 41). -/
def subtitleCanParse (line : String) : Bool := searchB subtitleAt line.data

/-- The first dialogue pattern of `DialogueParser`
(src/parsers/dialogue_parser.py line 31), anchored at the start:
a bracketed `name=` with a quoted capture followed by a closing bracket. -/
def dialogueP1 (l : List Char) : Bool :=
  match (litAt false "[name=".data l).bind quotedRun with
  | some (_, ']' :: _) => true
  | _ => false

/-- Position matcher for the second dialogue pattern (line 32): `name`,
an equals sign with optional whitespace, a quoted capture, then a closing
bracket. -/
def dialogueP2At (s : List Char) : Bool :=
  match (litAt false "name".data s).bind eqThenQuoted with
  | some (_, ']' :: _) => true
  | _ => false

/-- `DialogueParser.can_parse` (lines 34-45): pattern 1 matched at the start
or pattern 2 found anywhere. -/
def dialogueCanParse (line : String) : Bool :=
  dialogueP1 line.data || searchB dialogueP2At line.data

/-- Core of the narration regex of `NarrationParser`
(src/parsers/narration_parser.py line 31): the character class in the source
holds the ASCII double quote twice, so the pattern is a quote, one or more
non-newline characters, then a quote at the end. -/
def narrationCore (l : List Char) : Bool :=
  match l with
  | '"' :: rest =>
    2 ≤ rest.length && rest.getLast? == some '"' &&
      rest.dropLast.all (fun c => c != '\n')
  | _ => false

/-- `NarrationParser.can_parse` (line 43); the anchor also matches just
before one trailing newline. -/
def narrationCanParse (line : String) : Bool :=
  narrationCore line.data ||
  (line.data.getLast? == some '\n' && narrationCore line.data.dropLast)

/-! ## Parser registry (src/parsers/registry.py) -/

/-- The view `ParserRegistry` has of a rule: the `enabled` and `priority`
attributes of `LineParser` plus the `can_parse`/`parse` capability pair.
For every rule in this repository the boolean result of `parse` depends only
on the line, so the registry-level dispatch is modelled with pure
functions. -/
structure LineRule where
  enabled : Bool
  priority : Nat
  canParse : String → Bool
  parse : String → Bool

/-- The dispatch loop of `ParserRegistry.parse_line` (lines 115-122):
skip disabled rules; the first enabled rule whose `can_parse` accepts the
line gets `parse`, and its result is returned with no fallback. -/
def dispatch (l : String) : List LineRule → Bool
  | [] => false
  | r :: rs =>
    if r.enabled then
      (if r.canParse l then r.parse l else dispatch l rs)
    else dispatch l rs

/-- `ParserRegistry.parse_line` (lines 100-122): strip the line, report
empty lines unhandled without touching the rules, otherwise dispatch. -/
def parseLine (rs : List LineRule) (line : String) : Bool :=
  let l := pyStrip line
  if l == "" then false else dispatch l rs

/-- The sort key comparison of `ParserRegistry.register`: ascending
priority. -/
def priorityLe (a b : LineRule) : Bool := decide (a.priority ≤ b.priority)

/-- `ParserRegistry.register` (lines 28-38): append the rule, then stably
sort the list by ascending priority (Python `list.sort` is a stable sort;
Lean `List.mergeSort` is its stable-sort semantics). -/
def register (rs : List LineRule) (r : LineRule) : List LineRule :=
  (rs ++ [r]).mergeSort priorityLe

/-- Registering a sequence of rules one by one into an empty registry. -/
def registerAll (rules : List LineRule) : List LineRule :=
  rules.foldl register []

/-! ## Document assembler line loop (src/parse_text_to_docx.py lines 477-481) -/

/-- The skipped-lines accumulation of `DocumentAssembler.parse_lines`: each
raw line is given to `ParserRegistry.parse_line`, and when the result is
false the raw line with trailing newlines removed is appended to the
skipped-lines list. -/
def parseLinesSkipped (rs : List LineRule) (skipped : List String)
    (lines : List String) : List String :=
  lines.foldl
    (fun acc raw =>
      if parseLine rs raw then acc else acc ++ [rstripNewlines raw])
    skipped

/-- The default registry of `DocumentAssembler._setup_parsers` with the
default configuration (config/loader.py `DEFAULT_CONFIG`): all nine rules
enabled, priorities 5, 10, 20, 21, 30, 35, 40, 45, 60; registration order
is the `parser_classes` dict order, which already coincides with ascending
priority, so the sorted registry equals the registration sequence.  The
boolean `parse` results are those of each rule's `parse` method: the control
rule always reports false, and every other rule reports whether its pattern
matched. -/
def defaultRules : List LineRule :=
  [⟨true, 5, controlCanParse, fun _ => false⟩,
   ⟨true, 10, imageCanParse, imageCanParse⟩,
   ⟨true, 20, decisionCanParse, decisionCanParse⟩,
   ⟨true, 21, predicateCanParse, predicateCanParse⟩,
   ⟨true, 30, sceneCanParse, sceneCanParse⟩,
   ⟨true, 35, subtitleCanParse, subtitleCanParse⟩,
   ⟨true, 40, dialogueCanParse, dialogueCanParse⟩,
   ⟨true, 45, soundRuleCanParse (mkSoundRule true 45 true),
     fun l => (soundRuleParse (mkSoundRule true 45 true) l).1⟩,
   ⟨true, 60, narrationCanParse, narrationCanParse⟩]

/-! ## Predicate branch headers (src/parse_text_to_docx.py lines 235-265) -/

/-- Python `references.split(';')` on a character list: splitting on every
semicolon, an empty input yielding one empty field. -/
def splitSemiL : List Char → List (List Char)
  | [] => [[]]
  | c :: rest =>
    if c = ';' then [] :: splitSemiL rest
    else
      match splitSemiL rest with
      | [] => [[c]]
      | g :: gs => (c :: g) :: gs

/-- Python `references.split(';')`. -/
def pySplitSemicolon (s : String) : List String :=
  (splitSemiL s.data).map List.asString

/-- Python `options_map.get(k, d)` on the value-to-text decision map,
modelled as an association list with the dict's (unique-key) lookup. -/
def lookupD (m : List (String × String)) (k d : String) : String :=
  (m.lookup k).getD d

/-- `add_predicate_header(doc, references, options_map)` (lines 235-265),
returning the branch-title text written to the document: a single reference
renders that option's text (or the synthesized label `选项` plus the value
when absent from the map); a reference list whose length equals the size of
the map renders the merge label `[→ 汇合]`; anything else renders the
ampersand-joined option texts. -/
def addPredicateHeader (references : String)
    (optionsMap : List (String × String)) : String :=
  let refs := pySplitSemicolon references
  if refs.length = 1 then
    "[→ " ++ lookupD optionsMap (refs.headD "") ("选项" ++ refs.headD "") ++ "]"
  else if refs.length = optionsMap.length then "[→ 汇合]"
  else
    "[→ " ++
      String.intercalate " & "
        (refs.map (fun r => lookupD optionsMap r ("选项" ++ r))) ++ "]"

/-- Rendering rule as worded by the specification, for comparison with
`addPredicateHeader`: the single-option label when the reference SET has
size one, the merge label when the reference set spans the full option set
of the map, and the joined labels otherwise. -/
def specPredicateHeader (references : String)
    (optionsMap : List (String × String)) : String :=
  let refs := pySplitSemicolon references
  if refs.toFinset.card = 1 then
    "[→ " ++ lookupD optionsMap (refs.headD "") ("选项" ++ refs.headD "") ++ "]"
  else if refs.toFinset = (optionsMap.map Prod.fst).toFinset then "[→ 汇合]"
  else
    "[→ " ++
      String.intercalate " & "
        (refs.map (fun r => lookupD optionsMap r ("选项" ++ r))) ++ "]"

/-! ## Image rule state (src/parsers/image_parser.py) -/

/-- The image-rule state slice created by `ImageParser.initialize`
(lines 32-42): the local image counter, the map from local index to the
placeholder run written in the body, and the pending-fetch queue. -/
structure ImageState where
  imageCounter : Nat
  imageReferenceRuns : List (Nat × String)
  imagesToAppend : List (Nat × String)
deriving DecidableEq

/-- `ImageParser.initialize` (lines 32-42): the state is reset to a zero
counter and empty collections every time the method runs. -/
def imageInitState : ImageState := ⟨0, [], []⟩

/-- The placeholder text written by `add_image_reference`
(src/parse_text_to_docx.py lines 207-220). -/
def addImageReference (n : Nat) : String := "[图片: 图片" ++ toString n ++ "]"

/-- `ImageParser.parse` (lines 56-90) as a state transformer: on a pattern
match, a known image id increments the counter, records the placeholder run
under the new local index and queues `(index, url)`; an unknown id changes
nothing; the directive is handled either way, and a line without the
pattern is unhandled. -/
def imageRuleParse (imageMap : List (String × String)) (st : ImageState)
    (line : String) : ImageState × Bool :=
  match imageFind line with
  | none => (st, false)
  | some g =>
    match imageMap.lookup (pyStrip g) with
    | some url =>
      let n := st.imageCounter + 1
      (⟨n, st.imageReferenceRuns ++ [(n, addImageReference n)],
        st.imagesToAppend ++ [(n, url)]⟩, true)
    | none => (st, true)

/-- Evolution of the image rule's state slice across one
`DocumentAssembler.parse_lines` call: `registry.initialize_all()` runs first
(src/parse_text_to_docx.py line 465), so `ImageParser.initialize` resets the
slice regardless of the state `st` the assembler carried in; then each line
is dispatched, and with the default priorities only the control rule (5) is
tried before the image rule (10). -/
def imageSessionCall (imageMap : List (String × String)) (st : ImageState)
    (lines : List String) : ImageState :=
  let reset := imageInitState
  lines.foldl
    (fun s raw =>
      let l := pyStrip raw
      if l == "" then s
      else if controlCanParse l then s
      else if imageCanParse l then (imageRuleParse imageMap s l).1
      else s)
    reset

/-! ## Image finalize step (`DocumentAssembler.append_images`,
src/parse_text_to_docx.py lines 499-537) -/

/-- One trailing-section entry produced by `append_images`: a stored image
payload or an error placeholder, each carrying its final index. -/
inductive OutEntry (Content : Type) where
  | image (finalIndex : Nat) (content : Content) (url : String)
  | error (finalIndex : Nat) (url : String) (msg : String)
deriving DecidableEq

/-- Final index of a trailing-section entry. -/
def OutEntry.finalIndex {Content : Type} : OutEntry Content → Nat
  | .image n _ _ => n
  | .error n _ _ => n

/-- The accumulator of the `append_images` loop: the content-hash dedup map,
the local-to-final index map, the output entries and the final counter. -/
structure ImgFinalState (Content γ : Type) where
  hashToFinalIndex : γ → Option Nat
  indexMap : Nat → Option Nat
  outputEntries : List (OutEntry Content)
  finalCounter : Nat

/-- One iteration of the `append_images` loop (lines 508-537) over a pending
`(localIndex, url)` entry.  `fetch` models `requests.get` plus
`raise_for_status` (any exception becomes the error branch, which the
`except` clause turns into an error entry with its own fresh final index);
`hash` models the sha256 content hash.  A hash hit maps the local index to
the canonical final index and stores nothing; a new hash takes the next
counter value, stores the payload and records the hash. -/
def imgStep {Content γ : Type} [DecidableEq γ]
    (fetch : String → Except String Content) (hash : Content → γ)
    (st : ImgFinalState Content γ) (p : Nat × String) :
    ImgFinalState Content γ :=
  match fetch p.2 with
  | .ok content =>
    match st.hashToFinalIndex (hash content) with
    | some fi =>
      { st with indexMap := fun j => if j = p.1 then some fi else st.indexMap j }
    | none =>
      let c := st.finalCounter + 1
      { hashToFinalIndex :=
          fun h => if h = hash content then some c else st.hashToFinalIndex h
        indexMap := fun j => if j = p.1 then some c else st.indexMap j
        outputEntries := st.outputEntries ++ [.image c content p.2]
        finalCounter := c }
  | .error e =>
    let c := st.finalCounter + 1
    { st with
        indexMap := fun j => if j = p.1 then some c else st.indexMap j
        outputEntries := st.outputEntries ++ [.error c p.2 e]
        finalCounter := c }

/-- The empty accumulator `append_images` starts from (lines 503-506). -/
def imgInit (Content γ : Type) : ImgFinalState Content γ :=
  ⟨fun _ => none, fun _ => none, [], 0⟩

/-- The whole `append_images` fold over the pending-fetch queue in original
order. -/
def appendImages {Content γ : Type} [DecidableEq γ]
    (fetch : String → Except String Content) (hash : Content → γ)
    (pending : List (Nat × String)) : ImgFinalState Content γ :=
  pending.foldl (imgStep fetch hash) (imgInit Content γ)

/-- Invariant of the `append_images` loop after the entries of `processed`
have been consumed: the counter equals the number of output entries; output
final indices are exactly 1, 2, ... in order; the hash map points exactly at
the stored image entries; every stored image entry stems from the first
processed success bearing its hash; and every processed entry is numbered in
the local-to-final index map, consistently with the hash map on success. -/
def ImgInv {Content γ : Type} [DecidableEq γ]
    (fetch : String → Except String Content) (hash : Content → γ)
    (processed : List (Nat × String))
    (st : ImgFinalState Content γ) : Prop :=
  st.finalCounter = st.outputEntries.length ∧
  st.outputEntries.map OutEntry.finalIndex =
    List.range' 1 st.outputEntries.length ∧
  (∀ (h : γ) (fi : Nat), st.hashToFinalIndex h = some fi →
    ∃ c u, OutEntry.image fi c u ∈ st.outputEntries ∧ hash c = h) ∧
  (∀ (fi : Nat) (c : Content) (u : String),
    OutEntry.image fi c u ∈ st.outputEntries →
    st.hashToFinalIndex (hash c) = some fi) ∧
  (∀ (fi : Nat) (c : Content) (u : String),
    OutEntry.image fi c u ∈ st.outputEntries →
    ∃ pre q post, processed = pre ++ q :: post ∧ q.2 = u ∧
      fetch q.2 = Except.ok c ∧
      ∀ r ∈ pre, ∀ c2, fetch r.2 = Except.ok c2 → hash c2 ≠ hash c) ∧
  (∀ q ∈ processed, ∃ fi, st.indexMap q.1 = some fi ∧
    ∀ c, fetch q.2 = Except.ok c → st.hashToFinalIndex (hash c) = some fi)

/-- A concrete fetch fixture for witnesses: the url `bad` fails, every
other url returns the byte value 7. -/
def witnessFetch : String → Except String Nat :=
  fun u => if u == "bad" then Except.error "boom" else Except.ok 7

/-! ## Claim theorems -/

/-- C1: a control/separator line such as `#`, `[Dialog]`, `[Charslot]` or
`[Background]` IS recorded in the skipped-lines list by
`DocumentAssembler.parse_lines` under the default registry, because
`ControlParser.can_parse` accepts the line but `ControlParser.parse` returns
false and the assembler appends every line whose `parse_line` result is
false.  This evaluates the embedded code at the failing inputs of the
claim. -/
theorem claimC1_control_lines_logged_as_skipped :
    controlCanParse "#" = true ∧ controlCanParse "[Dialog]" = true ∧
    controlCanParse "[Charslot]" = true ∧ controlCanParse "[Background]" = true ∧
    parseLine defaultRules "#" = false ∧
    parseLinesSkipped defaultRules [] ["#", "[Dialog]", "[Charslot]", "[Background]"] =
      ["#", "[Dialog]", "[Charslot]", "[Background]"] := by
  decide

/-- C2 counterexample: after a first `parse_lines` call has set the image
counter to 1 and queued one pending fetch, a second call on the same
assembler begins by running `initialize_all`, which resets the image slice:
the counter is 0 and the pending queue is empty, so the state built by the
earlier call is erased, contrary to the claim. -/
theorem claimC2_counterexample :
    (imageSessionCall [("x", "http://example/u")] imageInitState
        ["[Image(image=\"x\")]"]).imageCounter = 1 ∧
    (imageSessionCall [("x", "http://example/u")] imageInitState
        ["[Image(image=\"x\")]"]).imagesToAppend = [(1, "http://example/u")] ∧
    (imageSessionCall [("x", "http://example/u")]
        (imageSessionCall [("x", "http://example/u")] imageInitState
          ["[Image(image=\"x\")]"]) []).imageCounter = 0 ∧
    (imageSessionCall [("x", "http://example/u")]
        (imageSessionCall [("x", "http://example/u")] imageInitState
          ["[Image(image=\"x\")]"]) []).imagesToAppend = [] := by
  decide

/-- C2 (amended): rule initialization runs at the start of every
`parse_lines`/`parseText` call, not once per assembler session, and
`ImageParser.initialize` resets the image state, so the image state carried
into a later call is erased: the result of a call never depends on the
incoming image state, and a call on an empty line list leaves the freshly
reset state. -/
theorem claimC2_reinit_each_call :
    (∀ (m : List (String × String)) (st st2 : ImageState) (lines : List String),
      imageSessionCall m st lines = imageSessionCall m st2 lines) ∧
    (∀ (m : List (String × String)) (st : ImageState),
      imageSessionCall m st [] = imageInitState) :=
  ⟨fun _ _ _ _ => rfl, fun _ _ => rfl⟩

/-- C4 counterexample: with the active decision map mapping value 1 to
option A and value 2 to option B, the reference list `1;1` spans only the
singleton reference set containing value 1, yet `add_predicate_header`
renders the merge/rejoin label because it compares list lengths, while the
spec's set-based rule renders the single-option label A. -/
theorem claimC4_counterexample :
    addPredicateHeader "1;1" [("1", "A"), ("2", "B")] = "[→ 汇合]" ∧
    specPredicateHeader "1;1" [("1", "A"), ("2", "B")] = "[→ A]" ∧
    addPredicateHeader "1;1" [("1", "A"), ("2", "B")] ≠
      specPredicateHeader "1;1" [("1", "A"), ("2", "B")] ∧
    (pySplitSemicolon "1;1").toFinset ≠
      ((([("1", "A"), ("2", "B")] : List (String × String)).map Prod.fst).toFinset) := by
  decide

/-- C4 (amended): `add_predicate_header` branches on the LENGTH of the
semicolon-split reference list: one reference renders the single-option
label with the synthesized `选项` placeholder for values absent from the
map; a list whose length equals the map's size renders the merge label;
anything else renders the ampersand-joined labels.  For duplicate-free
reference lists drawn from a duplicate-free option map, the length test
coincides with the spec's set-spanning test. -/
theorem claimC4_count_based_branches :
    ∀ (references : String) (optionsMap : List (String × String)),
    ((pySplitSemicolon references).length = 1 →
      addPredicateHeader references optionsMap =
        "[→ " ++ lookupD optionsMap ((pySplitSemicolon references).headD "")
          ("选项" ++ (pySplitSemicolon references).headD "") ++ "]") ∧
    ((pySplitSemicolon references).length ≠ 1 →
      (pySplitSemicolon references).length = optionsMap.length →
      addPredicateHeader references optionsMap = "[→ 汇合]") ∧
    ((pySplitSemicolon references).length ≠ 1 →
      (pySplitSemicolon references).length ≠ optionsMap.length →
      addPredicateHeader references optionsMap =
        "[→ " ++ String.intercalate " & "
          ((pySplitSemicolon references).map
            (fun r => lookupD optionsMap r ("选项" ++ r))) ++ "]") ∧
    ((pySplitSemicolon references).Nodup →
      (∀ r ∈ pySplitSemicolon references, r ∈ optionsMap.map Prod.fst) →
      (optionsMap.map Prod.fst).Nodup →
      ((pySplitSemicolon references).length = optionsMap.length ↔
        (pySplitSemicolon references).toFinset =
          (optionsMap.map Prod.fst).toFinset)) := by
  intro references optionsMap
  refine ⟨fun h1 => ?_, fun h1 h2 => ?_, fun h1 h2 => ?_, fun hnd hmem hknd => ?_⟩
  · simp only [addPredicateHeader]
    rw [if_pos h1]
  · simp only [addPredicateHeader]
    rw [if_neg h1, if_pos h2]
  · simp only [addPredicateHeader]
    rw [if_neg h1, if_neg h2]
  · have hsub : (pySplitSemicolon references).toFinset ⊆
        (optionsMap.map Prod.fst).toFinset := by
      intro r hr
      exact List.mem_toFinset.mpr (hmem r (List.mem_toFinset.mp hr))
    constructor
    · intro hlen
      apply Finset.eq_of_subset_of_card_le hsub
      rw [List.toFinset_card_of_nodup hknd, List.toFinset_card_of_nodup hnd,
        List.length_map, hlen]
    · intro hset
      have hcard := congrArg Finset.card hset
      rw [List.toFinset_card_of_nodup hnd, List.toFinset_card_of_nodup hknd,
        List.length_map] at hcard
      exact hcard

/-- C4 witness: the amended merge branch applied at the concrete reference
list `1;2` over a two-option map. -/
theorem claimC4_witness :
    addPredicateHeader "1;2" [("1", "A"), ("2", "B")] = "[→ 汇合]" :=
  (claimC4_count_based_branches "1;2" [("1", "A"), ("2", "B")]).2.1
    (by decide) (by decide)

/-- C6 counterexample: `SoundParser.can_parse` does NOT recognize
`[stopsound]` or `[STOPSOUND]`, because its candidate list is matched
case-sensitively and contains neither the all-lowercase `stopsound` nor any
all-uppercase form. -/
theorem claimC6_counterexample :
    soundRuleCanParse (mkSoundRule true 45 true) "[stopsound]" = false ∧
    soundRuleCanParse (mkSoundRule true 45 true) "[STOPSOUND]" = false := by
  decide

/-- C6 (amended): `SoundParser.can_parse` recognizes bracketed lines
containing one of the exact-case substrings PlaySound, PlayMusic, StopSound,
stopmusic, StopMusic, playsound, playmusic — a case-sensitive candidate
list, not a case-insensitive match, so `[stopsound]` and `[STOPSOUND]` are
not recognized — plus angle-bracketed stage-direction lines. -/
theorem claimC6_exact_candidates :
    soundRuleCanParse (mkSoundRule true 45 true) "[StopSound]" = true ∧
    soundRuleCanParse (mkSoundRule true 45 true) "[stopmusic]" = true ∧
    soundRuleCanParse (mkSoundRule true 45 true) "[playsound]" = true ∧
    soundRuleCanParse (mkSoundRule true 45 true) "[stopsound]" = false ∧
    soundRuleCanParse (mkSoundRule true 45 true) "[STOPSOUND]" = false ∧
    (∀ (p : SoundRule) (line c : String), c ∈ soundCandidates →
      startsWithChar '[' line = true → containsSub c line = true →
      soundRuleCanParse p line = true) ∧
    (∀ (p : SoundRule) (line : String), startsWithChar '<' line = true →
      endsWithChar '>' line = true → soundRuleCanParse p line = true) := by
  refine ⟨by decide, by decide, by decide, by decide, by decide, ?_, ?_⟩
  · intro p line c hc hstart hsub
    unfold soundRuleCanParse
    rw [hstart, Bool.true_and]
    have : soundCandidates.any (fun c => containsSub c line) = true :=
      List.any_eq_true.mpr ⟨c, hc, hsub⟩
    rw [this, Bool.true_or]
  · intro p line hstart hend
    unfold soundRuleCanParse
    rw [hstart, hend]
    simp

/-- C6 witness: the amended bracketed-candidate clause applied to the
concrete line `[StopSound]` with the candidate StopSound. -/
theorem claimC6_witness :
    soundRuleCanParse (mkSoundRule true 45 false) "[StopSound]" = true :=
  claimC6_exact_candidates.2.2.2.2.2.1 (mkSoundRule true 45 false)
    "[StopSound]" "StopSound" (by decide) (by decide) (by decide)

/-- C9: the `skip_resource_ids` flag of `SoundParser` is stored by the
constructor but never read: for every line, `parse` and `can_parse` produce
identical handled flags and identical emitted output whichever value the
flag has (the rule touches no other state), and resource-id suppression
applies regardless of the flag. -/
theorem claimC9_flag_inert :
    (∀ (b1 b2 e : Bool) (pr : Nat) (line : String),
      soundRuleParse (mkSoundRule e pr b1) line =
        soundRuleParse (mkSoundRule e pr b2) line ∧
      soundRuleCanParse (mkSoundRule e pr b1) line =
        soundRuleCanParse (mkSoundRule e pr b2) line) ∧
    (∀ (e b : Bool) (pr : Nat), (mkSoundRule e pr b).skipResourceIds = b) ∧
    (∀ b : Bool, soundRuleParse (mkSoundRule true 45 b)
      "[PlaySound key=\"bgm_001\"]" = (true, [])) :=
  ⟨fun _ _ _ _ _ => ⟨rfl, rfl⟩, fun _ _ _ => rfl, fun b => by cases b <;> decide⟩

/-- Every resource-id character codes below the CJK block. -/
lemma toNat_lt_of_resIdChar (c : Char) (h : isResIdChar c = true) :
    c.toNat < 19968 := by
  unfold isResIdChar at h
  simp only [Bool.or_eq_true, Bool.and_eq_true, decide_eq_true_eq,
    beq_iff_eq] at h
  rcases h with ((((((h | h) | h) | h) | h) | h) | h)
  · omega
  · omega
  · omega
  all_goals subst h; decide

/-- A resource-id character is not a CJK character. -/
lemma isCJK_false_of_resIdChar (c : Char) (h : isResIdChar c = true) :
    isCJK c = false := by
  have hlt := toNat_lt_of_resIdChar c h
  unfold isCJK
  have : ¬ (19968 ≤ c.toNat) := by omega
  simp [this]

/-- Every character of a list accepted by the core resource-id matcher is a
resource-id character. -/
lemma resIdCore_all (l : List Char) (h : resIdCore l = true) :
    ∀ c ∈ l, isResIdChar c = true := by
  intro c hc
  cases l with
  | nil => cases hc
  | cons a rest =>
    simp only [resIdCore, Bool.or_eq_true, Bool.and_eq_true, beq_iff_eq] at h
    rcases List.mem_cons.mp hc with rfl | hc2
    · rcases h with ⟨⟨ha, -⟩, -⟩ | ⟨-, hall⟩
      · subst ha; decide
      · exact List.all_eq_true.mp hall _ (List.mem_cons_self _ _)
    · rcases h with ⟨-, hall⟩ | ⟨-, hall⟩
      · exact List.all_eq_true.mp hall c hc2
      · exact List.all_eq_true.mp hall c (List.mem_cons_of_mem _ hc2)

/-- Every character of a text accepted by the full resource-id regex is a
resource-id character, except possibly one trailing newline. -/
lemma resourceIdMatch_all (s : String) (h : resourceIdMatch s = true) :
    ∀ c ∈ s.data, isResIdChar c = true ∨ c = '\n' := by
  unfold resourceIdMatch at h
  rw [Bool.or_eq_true] at h
  rcases h with h | h
  · intro c hc
    exact Or.inl (resIdCore_all _ h c hc)
  · rw [Bool.and_eq_true] at h
    obtain ⟨hlast, hcore⟩ := h
    intro c hc
    have hlast2 : s.data.getLast? = some '\n' := by simpa using hlast
    have hne : s.data ≠ [] := by
      intro h0
      rw [h0] at hlast2
      simp at hlast2
    have hdecomp := List.dropLast_append_getLast hne
    have hg : s.data.getLast hne = '\n' := by
      rw [List.getLast?_eq_getLast s.data hne] at hlast2
      exact Option.some.inj hlast2
    rw [← hdecomp] at hc
    rcases List.mem_append.mp hc with hc1 | hc2
    · exact Or.inl (resIdCore_all _ hcore c hc1)
    · right
      rw [List.mem_singleton] at hc2
      rw [hc2, hg]

/-- On a resource-id match, `add_sound_effect` suppresses the text. -/
lemma addSoundEffect_of_match (text : String)
    (h : resourceIdMatch text = true) : addSoundEffect text = none := by
  have hcjk : text.data.any isCJK = false := by
    rw [List.any_eq_false]
    intro c hc
    rcases resourceIdMatch_all text h c hc with hr | rfl
    · simp [isCJK_false_of_resIdChar c hr]
    · decide
  simp [addSoundEffect, hcjk, h]

/-- Without a resource-id match, `add_sound_effect` renders the bracketed
stage cue, whether or not the text holds a CJK character. -/
lemma addSoundEffect_of_not_match (text : String)
    (h : resourceIdMatch text = false) :
    addSoundEffect text = some ("<" ++ text ++ ">") := by
  unfold addSoundEffect
  by_cases hc : text.data.any isCJK = true
  · simp [hc]
  · rw [Bool.not_eq_true] at hc
    simp [hc, h]

/-- A newline-free text holding any non-resource-id character fails the
resource-id regex. -/
lemma resourceIdMatch_eq_false (text : String)
    (hnl : ∀ c ∈ text.data, c ≠ '\n')
    (hbad : ∃ c ∈ text.data, isResIdChar c = false) :
    resourceIdMatch text = false := by
  obtain ⟨c0, hc0, hbad0⟩ := hbad
  by_contra h
  rw [Bool.not_eq_false] at h
  rcases resourceIdMatch_all text h c0 hc0 with hr | hr
  · rw [hr] at hbad0
    cases hbad0
  · exact hnl c0 hc0 hr

/-- C7: for sound-text emission, a newline-free text containing any
character outside the resource-id class is rendered as a bracketed stage
cue; a text matching the bare resource-id shape (optional dollar prefix,
otherwise only letters, digits, underscore, hyphen, slash, dollar) is
suppressed with no output; any other shape is rendered; in particular
`$bgm_001` is suppressed while the stage direction `<distant thunder>`
renders a visible cue through `SoundParser.parse`. -/
theorem claimC7_sound_text_emission :
    (∀ text : String, (∀ c ∈ text.data, c ≠ '\n') →
      (∃ c ∈ text.data, isResIdChar c = false) →
      addSoundEffect text = some ("<" ++ text ++ ">")) ∧
    (∀ text : String, resourceIdMatch text = true →
      addSoundEffect text = none) ∧
    (∀ text : String, resourceIdMatch text = false →
      addSoundEffect text = some ("<" ++ text ++ ">")) ∧
    addSoundEffect "$bgm_001" = none ∧
    soundRuleParse (mkSoundRule true 45 true) "<distant thunder>" =
      (true, ["<distant thunder>"]) := by
  refine ⟨?_, addSoundEffect_of_match, addSoundEffect_of_not_match,
    by decide, by decide⟩
  intro text hnl hbad
  exact addSoundEffect_of_not_match text (resourceIdMatch_eq_false text hnl hbad)

/-- C7 witness: the rendered and suppressed branches applied at concrete
texts. -/
theorem claimC7_witness :
    addSoundEffect "a b" = some "<a b>" ∧ addSoundEffect "bgm_003" = none :=
  ⟨claimC7_sound_text_emission.1 "a b" (by decide) (by decide),
   claimC7_sound_text_emission.2.1 "bgm_003" (by decide)⟩

/-! ## Registry dispatch and registration lemmas -/

/-- Dispatch returns the first enabled accepting rule's parse result: every
earlier enabled rule that rejects the line is passed over. -/
lemma dispatch_first_accepting (l : String) (rs1 rs2 : List LineRule)
    (r : LineRule) (he : r.enabled = true) (hc : r.canParse l = true)
    (hprev : ∀ x ∈ rs1, x.enabled = true → x.canParse l = false) :
    dispatch l (rs1 ++ r :: rs2) = r.parse l := by
  induction rs1 with
  | nil => simp [dispatch, he, hc]
  | cons x xs ih =>
    have ih2 := ih (fun y hy hye => hprev y (List.mem_cons_of_mem _ hy) hye)
    cases hxe : x.enabled with
    | false => simpa [dispatch, hxe] using ih2
    | true =>
      have hx : x.canParse l = false := hprev x (List.mem_cons_self _ _) hxe
      simpa [dispatch, hxe, hx] using ih2

/-- Dispatch never looks inside a disabled rule: replacing one disabled rule
by any other disabled rule leaves the result unchanged. -/
lemma dispatch_disabled_irrelevant (l : String) (rs1 rs2 : List LineRule)
    (a b : LineRule) (ha : a.enabled = false) (hb : b.enabled = false) :
    dispatch l (rs1 ++ a :: rs2) = dispatch l (rs1 ++ b :: rs2) := by
  induction rs1 with
  | nil => simp [dispatch, ha, hb]
  | cons x xs ih =>
    cases hxe : x.enabled <;> cases hxc : x.canParse l <;>
      simp [dispatch, hxe, hxc, ih]

/-- The priority comparison is transitive. -/
lemma priorityLe_trans : ∀ a b c : LineRule, priorityLe a b = true →
    priorityLe b c = true → priorityLe a c = true := by
  intro a b c
  simp only [priorityLe, decide_eq_true_eq]
  omega

/-- The priority comparison is total. -/
lemma priorityLe_total : ∀ a b : LineRule,
    (priorityLe a b || priorityLe b a) = true := by
  intro a b
  simp only [priorityLe, Bool.or_eq_true, decide_eq_true_eq]
  omega

/-- Registering any sequence of rules into a sorted registry keeps the
registry sorted by ascending priority. -/
lemma registerFold_sorted (rules : List LineRule) :
    ∀ acc : List LineRule,
      List.Pairwise (fun a b => priorityLe a b = true) acc →
      List.Pairwise (fun a b => priorityLe a b = true)
        (rules.foldl register acc) := by
  induction rules with
  | nil => intro acc h; simpa using h
  | cons x xs ih =>
    intro acc _
    exact ih (register acc x)
      (List.sorted_mergeSort priorityLe_trans priorityLe_total _)

/-- An ordered pair transfers across a stable sort of the left part of an
append: stability for rules already side by side in priority order. -/
lemma pair_sublist_mergeSort_append (a b : LineRule) (P rest : List LineRule)
    (hab : priorityLe a b = true) (h : List.Sublist [a, b] (P ++ rest)) :
    List.Sublist [a, b] (P.mergeSort priorityLe ++ rest) := by
  rcases List.sublist_append_iff.mp h with ⟨l₁, l₂, heq, h₁, h₂⟩
  rcases l₁ with _ | ⟨x, _ | ⟨y, _ | ⟨z, t⟩⟩⟩
  · rw [List.nil_append] at heq
    rw [← heq] at h₂
    exact h₂.trans (List.sublist_append_right _ _)
  · rw [List.cons_append, List.nil_append] at heq
    injection heq with h1 h2
    rw [← h1] at h₁
    rw [← h2] at h₂
    have hmem : a ∈ P.mergeSort priorityLe :=
      (List.mergeSort_perm P priorityLe).symm.mem_iff.mp
        (List.singleton_sublist.mp h₁)
    have h1s : List.Sublist [a] (P.mergeSort priorityLe) :=
      List.singleton_sublist.mpr hmem
    exact h1s.append h₂
  · rw [List.cons_append, List.cons_append, List.nil_append] at heq
    injection heq with h1 heq2
    injection heq2 with h2 h3
    rw [← h1, ← h2] at h₁
    have hpair : List.Pairwise (fun u v => priorityLe u v = true) [a, b] := by
      refine List.Pairwise.cons ?_ (List.pairwise_singleton _ _)
      intro v hv
      rw [List.mem_singleton] at hv
      rw [hv]
      exact hab
    have hms : List.Sublist [a, b] (P.mergeSort priorityLe) :=
      List.sublist_mergeSort priorityLe_trans priorityLe_total hpair h₁
    exact hms.trans (List.sublist_append_left _ _)
  · exfalso
    have hlen : ([a, b] : List LineRule).length =
        ((x :: y :: z :: t) ++ l₂).length := congrArg List.length heq
    simp [List.length_append] at hlen

/-- Stability across a whole registration sequence: a pair of rules in
ascending priority order that occurs as a subsequence of the registration
sequence occurs in the same order in the final registry. -/
lemma registerFold_stable (rules : List LineRule) :
    ∀ (acc : List LineRule) (a b : LineRule), priorityLe a b = true →
      List.Sublist [a, b] (acc ++ rules) →
      List.Sublist [a, b] (rules.foldl register acc) := by
  induction rules with
  | nil => intro acc a b _ h; simpa using h
  | cons x xs ih =>
    intro acc a b hab h
    have h2 : List.Sublist [a, b] ((acc ++ [x]) ++ xs) := by
      simpa [List.append_assoc] using h
    have h3 : List.Sublist [a, b] (register acc x ++ xs) :=
      pair_sublist_mergeSort_append a b (acc ++ [x]) xs hab h2
    exact ih (register acc x) a b hab h3

/-- C3: `ParserRegistry.parse_line` strips the line and reports an empty
result unhandled without consulting any rule (the result is independent of
the rule list); otherwise the first enabled rule in registry order whose
`can_parse` accepts the stripped line gets `parse` and its boolean result is
the call's result, with no fallback to later rules; a disabled rule's
`can_parse` is never invoked (any disabled rule may be replaced by any other
without changing the result); and `register` appends then stably sorts, so
the registry is always sorted by ascending priority with ties kept in
registration order. -/
theorem claimC3_registry_contract :
    (∀ (rs : List LineRule) (line : String), pyStrip line = "" →
      parseLine rs line = false) ∧
    (∀ (rs rs2 : List LineRule) (line : String), pyStrip line = "" →
      parseLine rs line = parseLine rs2 line) ∧
    (∀ (rs1 rs2 : List LineRule) (r : LineRule) (line : String),
      r.enabled = true → r.canParse (pyStrip line) = true →
      (∀ x ∈ rs1, x.enabled = true → x.canParse (pyStrip line) = false) →
      pyStrip line ≠ "" →
      parseLine (rs1 ++ r :: rs2) line = r.parse (pyStrip line)) ∧
    (∀ (rs1 rs2 : List LineRule) (a b : LineRule) (line : String),
      a.enabled = false → b.enabled = false →
      parseLine (rs1 ++ a :: rs2) line = parseLine (rs1 ++ b :: rs2) line) ∧
    (∀ rules : List LineRule,
      List.Pairwise (fun a b => priorityLe a b = true) (registerAll rules)) ∧
    (∀ (rules : List LineRule) (a b : LineRule), a.priority ≤ b.priority →
      List.Sublist [a, b] rules → List.Sublist [a, b] (registerAll rules)) := by
  refine ⟨?_, ?_, ?_, ?_, ?_, ?_⟩
  · intro rs line h
    simp [parseLine, h]
  · intro rs rs2 line h
    simp [parseLine, h]
  · intro rs1 rs2 r line he hc hprev hne
    have hne2 : (pyStrip line == "") = false := by
      simpa using hne
    simp only [parseLine, hne2, Bool.false_eq_true, if_false]
    exact dispatch_first_accepting _ rs1 rs2 r he hc hprev
  · intro rs1 rs2 a b line ha hb
    by_cases h : pyStrip line = ""
    · simp [parseLine, h]
    · have hne2 : (pyStrip line == "") = false := by simpa using h
      simp only [parseLine, hne2, Bool.false_eq_true, if_false]
      exact dispatch_disabled_irrelevant _ rs1 rs2 a b ha hb
  · intro rules
    exact registerFold_sorted rules [] (List.Pairwise.nil)
  · intro rules a b hab h
    refine registerFold_stable rules [] a b ?_ (by simpa using h)
    simpa [priorityLe] using hab

/-- C3 witness: the first-accepting-rule clause applied to a concrete
two-rule registry and line, and the stability clause applied to two
equal-priority rules. -/
theorem claimC3_witness :
    parseLine [⟨true, 3, fun _ => false, fun _ => false⟩,
      ⟨true, 7, fun _ => true, fun _ => true⟩] "x" = true ∧
    List.Sublist
      [⟨true, 5, fun _ => false, fun _ => false⟩,
       (⟨true, 5, fun _ => true, fun _ => true⟩ : LineRule)]
      (registerAll [⟨true, 5, fun _ => false, fun _ => false⟩,
        ⟨true, 5, fun _ => true, fun _ => true⟩]) := by
  constructor
  · have h := claimC3_registry_contract.2.2.1
      [⟨true, 3, fun _ => false, fun _ => false⟩] []
      ⟨true, 7, fun _ => true, fun _ => true⟩ "x"
      rfl rfl
      (by
        intro x hx h2
        rw [List.mem_singleton] at hx
        subst hx
        rfl)
      (by decide)
    simpa using h
  · exact claimC3_registry_contract.2.2.2.2.2
      [⟨true, 5, fun _ => false, fun _ => false⟩,
       ⟨true, 5, fun _ => true, fun _ => true⟩]
      _ _ (le_refl 5) (List.Sublist.refl _)

/-- Lines already in the skipped accumulator stay in the result of the
skipped-lines fold. -/
lemma parseLinesSkipped_mem_of_mem_acc (rs : List LineRule) :
    ∀ (lines : List String) (acc : List String) (y : String), y ∈ acc →
      y ∈ parseLinesSkipped rs acc lines := by
  intro lines
  induction lines with
  | nil => intro acc y hy; simpa [parseLinesSkipped] using hy
  | cons x xs ih =>
    intro acc y hy
    show y ∈ parseLinesSkipped rs
      (if parseLine rs x then acc else acc ++ [rstripNewlines x]) xs
    by_cases hx : parseLine rs x = true
    · rw [if_pos hx]
      exact ih acc y hy
    · rw [Bool.not_eq_true] at hx
      rw [hx]
      exact ih _ y (List.mem_append_left _ hy)

/-- Every raw line that `parse_line` reports unhandled ends up (with
trailing newlines removed) in the skipped-lines list. -/
lemma mem_parseLinesSkipped_of_unhandled (rs : List LineRule) :
    ∀ (lines : List String) (acc : List String) (raw : String), raw ∈ lines →
      parseLine rs raw = false →
      rstripNewlines raw ∈ parseLinesSkipped rs acc lines := by
  intro lines
  induction lines with
  | nil => intro acc raw h; cases h
  | cons x xs ih =>
    intro acc raw hmem hun
    show rstripNewlines raw ∈ parseLinesSkipped rs
      (if parseLine rs x then acc else acc ++ [rstripNewlines x]) xs
    rcases List.mem_cons.mp hmem with rfl | hmem2
    · rw [hun]
      exact parseLinesSkipped_mem_of_mem_acc rs xs _ _
        (List.mem_append_right _ (List.mem_singleton.mpr rfl))
    · by_cases hx : parseLine rs x = true
      · rw [if_pos hx]
        exact ih acc raw hmem2 hun
      · rw [Bool.not_eq_true] at hx
        rw [hx]
        exact ih _ raw hmem2 hun

/-- C10: every input line of a `parse_lines` call that is empty or
whitespace-only is appended (with trailing newlines removed) to the
skipped-lines list: `ParserRegistry.parse_line` reports it unhandled without
consulting any rule (the result is false for every rule list), and the
assembler records every unhandled raw line. -/
theorem claimC10_blank_lines_skipped :
    ∀ (rs : List LineRule) (lines acc : List String) (raw : String),
      raw ∈ lines → pyStrip raw = "" →
      parseLine rs raw = false ∧
      (∀ rs2 : List LineRule, parseLine rs2 raw = false) ∧
      rstripNewlines raw ∈ parseLinesSkipped rs acc lines := by
  intro rs lines acc raw hmem hstrip
  have hfalse : ∀ rs2 : List LineRule, parseLine rs2 raw = false := by
    intro rs2
    simp [parseLine, hstrip]
  exact ⟨hfalse rs, hfalse,
    mem_parseLinesSkipped_of_unhandled rs lines acc raw hmem (hfalse rs)⟩

/-- C10 witness: a whitespace-only line fed to the default registry is
reported unhandled and recorded in the skipped-lines list. -/
theorem claimC10_witness :
    parseLine defaultRules " \t" = false ∧
    (∀ rs2 : List LineRule, parseLine rs2 " \t" = false) ∧
    rstripNewlines " \t" ∈ parseLinesSkipped defaultRules [] ["abc", " \t"] :=
  claimC10_blank_lines_skipped defaultRules ["abc", " \t"] [] " \t"
    (by decide) (by decide)

/-! ## Invariants of the image finalize fold -/

section ImageFinalize

variable {Content γ : Type} [DecidableEq γ]
variable (fetch : String → Except String Content) (hash : Content → γ)

/-- The dedup branch of one loop iteration, as a state equation. -/
lemma imgStep_ok_dup (st : ImgFinalState Content γ) (p : Nat × String)
    (content : Content) (fi : Nat) (hf : fetch p.2 = Except.ok content)
    (hl : st.hashToFinalIndex (hash content) = some fi) :
    imgStep fetch hash st p =
      { st with indexMap := fun j => if j = p.1 then some fi else st.indexMap j } := by
  simp [imgStep, hf, hl]

/-- The new-hash branch of one loop iteration, as a state equation. -/
lemma imgStep_ok_new (st : ImgFinalState Content γ) (p : Nat × String)
    (content : Content) (hf : fetch p.2 = Except.ok content)
    (hl : st.hashToFinalIndex (hash content) = none) :
    imgStep fetch hash st p =
      { hashToFinalIndex := fun h =>
          if h = hash content then some (st.finalCounter + 1)
          else st.hashToFinalIndex h
        indexMap := fun j =>
          if j = p.1 then some (st.finalCounter + 1) else st.indexMap j
        outputEntries :=
          st.outputEntries ++ [.image (st.finalCounter + 1) content p.2]
        finalCounter := st.finalCounter + 1 } := by
  simp [imgStep, hf, hl]

/-- The fetch-failure branch of one loop iteration, as a state equation. -/
lemma imgStep_err (st : ImgFinalState Content γ) (p : Nat × String)
    (e : String) (hf : fetch p.2 = Except.error e) :
    imgStep fetch hash st p =
      { st with
          indexMap := fun j =>
            if j = p.1 then some (st.finalCounter + 1) else st.indexMap j
          outputEntries :=
            st.outputEntries ++ [.error (st.finalCounter + 1) p.2 e]
          finalCounter := st.finalCounter + 1 } := by
  simp [imgStep, hf]

/-- One loop iteration preserves the invariant, extending the processed
prefix, provided the new entry's local index is fresh. -/
lemma imgInv_step (processed : List (Nat × String))
    (st : ImgFinalState Content γ) (p : Nat × String)
    (hinv : ImgInv fetch hash processed st)
    (hfresh : p.1 ∉ processed.map Prod.fst) :
    ImgInv fetch hash (processed ++ [p]) (imgStep fetch hash st p) := by
  obtain ⟨hcnt, hseq, hmap1, hmap2, hfirst, hproc⟩ := hinv
  have hfreshpt : ∀ q ∈ processed, q.1 ≠ p.1 := by
    intro q hq hqp
    exact hfresh (hqp ▸ List.mem_map_of_mem Prod.fst hq)
  cases hf : fetch p.2 with
  | ok content =>
    cases hl : st.hashToFinalIndex (hash content) with
    | some fi =>
      rw [imgStep_ok_dup fetch hash st p content fi hf hl]
      refine ⟨hcnt, hseq, hmap1, hmap2, ?_, ?_⟩
      · intro fi2 c u hmem
        obtain ⟨pre, q, post, hdec, hqu, hqc, hpre⟩ := hfirst fi2 c u hmem
        exact ⟨pre, q, post ++ [p], by rw [hdec]; simp, hqu, hqc, hpre⟩
      · intro q hq
        rcases List.mem_append.mp hq with hq1 | hq2
        · obtain ⟨fi2, hidx, hhash⟩ := hproc q hq1
          refine ⟨fi2, ?_, hhash⟩
          simpa [hfreshpt q hq1] using hidx
        · rw [List.mem_singleton] at hq2
          subst hq2
          refine ⟨fi, by simp, ?_⟩
          intro c hc
          rw [hf] at hc
          rw [← Except.ok.inj hc]
          exact hl
    | none =>
      rw [imgStep_ok_new fetch hash st p content hf hl]
      refine ⟨by simp [hcnt], ?_, ?_, ?_, ?_, ?_⟩
      · simp only [List.map_append, List.length_append, List.map_cons,
          List.map_nil, List.length_cons, List.length_nil]
        rw [hseq, hcnt]
        rw [List.range'_concat 1 st.outputEntries.length]
        simp [OutEntry.finalIndex]
        omega
      · intro h fi2 hfi
        by_cases hh : h = hash content
        · subst hh
          simp only [if_pos rfl] at hfi
          refine ⟨content, p.2, ?_, rfl⟩
          rw [← Option.some.inj hfi]
          exact List.mem_append_right _ (List.mem_singleton.mpr rfl)
        · simp only [if_neg hh] at hfi
          obtain ⟨c, u, hmem, hhc⟩ := hmap1 h fi2 hfi
          exact ⟨c, u, List.mem_append_left _ hmem, hhc⟩
      · intro fi2 c u hmem
        rcases List.mem_append.mp hmem with hm1 | hm2
        · have hold := hmap2 fi2 c u hm1
          have hne : hash c ≠ hash content := by
            intro heq
            rw [heq, hl] at hold
            cases hold
          simp only [if_neg hne]
          exact hold
        · rw [List.mem_singleton] at hm2
          injection hm2 with h1 h2 h3
          subst h1
          subst h2
          simp
      · intro fi2 c u hmem
        rcases List.mem_append.mp hmem with hm1 | hm2
        · obtain ⟨pre, q, post, hdec, hqu, hqc, hpre⟩ := hfirst fi2 c u hm1
          exact ⟨pre, q, post ++ [p], by rw [hdec]; simp, hqu, hqc, hpre⟩
        · rw [List.mem_singleton] at hm2
          injection hm2 with h1 h2 h3
          subst h2
          subst h3
          refine ⟨processed, p, [], rfl, rfl, hf, ?_⟩
          intro r hr c2 hrc2 hhash
          obtain ⟨fi3, -, hh3⟩ := hproc r hr
          have := hh3 c2 hrc2
          rw [hhash] at this
          rw [hl] at this
          cases this
      · intro q hq
        rcases List.mem_append.mp hq with hq1 | hq2
        · obtain ⟨fi2, hidx, hhash⟩ := hproc q hq1
          refine ⟨fi2, ?_, ?_⟩
          · simpa [hfreshpt q hq1] using hidx
          · intro c hc
            have hold := hhash c hc
            have hne : hash c ≠ hash content := by
              intro heq
              rw [heq, hl] at hold
              cases hold
            simpa [hne] using hold
        · rw [List.mem_singleton] at hq2
          subst hq2
          refine ⟨st.finalCounter + 1, by simp, ?_⟩
          intro c hc
          rw [hf] at hc
          rw [← Except.ok.inj hc]
          simp
  | error e =>
    rw [imgStep_err fetch hash st p e hf]
    refine ⟨by simp [hcnt], ?_, ?_, ?_, ?_, ?_⟩
    · simp only [List.map_append, List.length_append, List.map_cons,
        List.map_nil, List.length_cons, List.length_nil]
      rw [hseq, hcnt]
      rw [List.range'_concat 1 st.outputEntries.length]
      simp [OutEntry.finalIndex]
      omega
    · intro h fi2 hfi
      obtain ⟨c, u, hmem, hhc⟩ := hmap1 h fi2 hfi
      exact ⟨c, u, List.mem_append_left _ hmem, hhc⟩
    · intro fi2 c u hmem
      rcases List.mem_append.mp hmem with hm1 | hm2
      · exact hmap2 fi2 c u hm1
      · rw [List.mem_singleton] at hm2
        cases hm2
    · intro fi2 c u hmem
      rcases List.mem_append.mp hmem with hm1 | hm2
      · obtain ⟨pre, q, post, hdec, hqu, hqc, hpre⟩ := hfirst fi2 c u hm1
        exact ⟨pre, q, post ++ [p], by rw [hdec]; simp, hqu, hqc, hpre⟩
      · rw [List.mem_singleton] at hm2
        cases hm2
    · intro q hq
      rcases List.mem_append.mp hq with hq1 | hq2
      · obtain ⟨fi2, hidx, hhash⟩ := hproc q hq1
        refine ⟨fi2, ?_, hhash⟩
        simpa [hfreshpt q hq1] using hidx
      · rw [List.mem_singleton] at hq2
        subst hq2
        refine ⟨st.finalCounter + 1, by simp, ?_⟩
        intro c hc
        rw [hf] at hc
        cases hc

/-- The whole fold preserves the invariant. -/
lemma imgInv_foldl :
    ∀ (pending processed : List (Nat × String)) (st : ImgFinalState Content γ),
      ImgInv fetch hash processed st →
      ((processed ++ pending).map Prod.fst).Nodup →
      ImgInv fetch hash (processed ++ pending)
        (pending.foldl (imgStep fetch hash) st) := by
  intro pending
  induction pending with
  | nil =>
    intro processed st h _
    simpa using h
  | cons p ps ih =>
    intro processed st h hnd
    have hfresh : p.1 ∉ processed.map Prod.fst := by
      rw [List.map_append, List.nodup_append] at hnd
      intro hmem
      exact hnd.2.2 hmem (by simp)
    have hstep := imgInv_step fetch hash processed st p h hfresh
    have hre : processed ++ p :: ps = (processed ++ [p]) ++ ps := by simp
    rw [hre] at hnd
    rw [hre]
    exact ih (processed ++ [p]) (imgStep fetch hash st p) hstep hnd

/-- The invariant holds of the empty starting state. -/
lemma imgInv_init : ImgInv fetch hash [] (imgInit Content γ) := by
  refine ⟨rfl, rfl, ?_, ?_, ?_, ?_⟩ <;> intro a <;> simp [imgInit]

/-- A step never erases a local-index assignment. -/
lemma imgStep_indexMap_ne_none_mono (st : ImgFinalState Content γ)
    (p : Nat × String) (j : Nat) (h : st.indexMap j ≠ none) :
    (imgStep fetch hash st p).indexMap j ≠ none := by
  cases hf : fetch p.2 with
  | ok content =>
    cases hl : st.hashToFinalIndex (hash content) with
    | some fi =>
      rw [imgStep_ok_dup fetch hash st p content fi hf hl]
      by_cases hj : j = p.1
      · simp [hj]
      · simpa [hj] using h
    | none =>
      rw [imgStep_ok_new fetch hash st p content hf hl]
      by_cases hj : j = p.1
      · simp [hj]
      · simpa [hj] using h
  | error e =>
    rw [imgStep_err fetch hash st p e hf]
    by_cases hj : j = p.1
    · simp [hj]
    · simpa [hj] using h

/-- A step always numbers its own entry, on success, dedup and failure
alike. -/
lemma imgStep_numbers_own (st : ImgFinalState Content γ) (p : Nat × String) :
    (imgStep fetch hash st p).indexMap p.1 ≠ none := by
  cases hf : fetch p.2 with
  | ok content =>
    cases hl : st.hashToFinalIndex (hash content) with
    | some fi =>
      rw [imgStep_ok_dup fetch hash st p content fi hf hl]
      simp
    | none =>
      rw [imgStep_ok_new fetch hash st p content hf hl]
      simp
  | error e =>
    rw [imgStep_err fetch hash st p e hf]
    simp

/-- The rest of the fold never erases a local-index assignment. -/
lemma imgFold_indexMap_ne_none_mono :
    ∀ (rest : List (Nat × String)) (st : ImgFinalState Content γ) (j : Nat),
      st.indexMap j ≠ none →
      ((rest.foldl (imgStep fetch hash) st)).indexMap j ≠ none := by
  intro rest
  induction rest with
  | nil => intro st j h; simpa using h
  | cons x xs ih =>
    intro st j h
    exact ih (imgStep fetch hash st x) j
      (imgStep_indexMap_ne_none_mono fetch hash st x j h)

end ImageFinalize

/-- C5: during the image finalize step the pending entries are folded in
original order; with pairwise-distinct local indices, the output entries
carry the sequential final indices 1, 2, ...; any two pending entries whose
fetched contents have equal hash are mapped to the same final index; at most
one payload is stored per content hash; every stored payload comes from the
first pending entry bearing its hash (first-seen canonical); and every
successful fetch's hash does have a stored payload. -/
theorem claimC5_dedup_invariant (Content γ : Type) [DecidableEq γ]
    (fetch : String → Except String Content) (hash : Content → γ)
    (pending : List (Nat × String))
    (hnd : (pending.map Prod.fst).Nodup) :
    ((appendImages fetch hash pending).outputEntries.map OutEntry.finalIndex =
      List.range' 1 (appendImages fetch hash pending).outputEntries.length) ∧
    (∀ p ∈ pending, ∀ q ∈ pending, ∀ c c2 : Content,
      fetch p.2 = Except.ok c → fetch q.2 = Except.ok c2 →
      hash c = hash c2 →
      (appendImages fetch hash pending).indexMap p.1 ≠ none ∧
      (appendImages fetch hash pending).indexMap p.1 =
        (appendImages fetch hash pending).indexMap q.1) ∧
    (∀ (fi fi2 : Nat) (c c2 : Content) (u u2 : String),
      OutEntry.image fi c u ∈ (appendImages fetch hash pending).outputEntries →
      OutEntry.image fi2 c2 u2 ∈ (appendImages fetch hash pending).outputEntries →
      hash c = hash c2 → fi = fi2 ∧ c = c2 ∧ u = u2) ∧
    (∀ (fi : Nat) (c : Content) (u : String),
      OutEntry.image fi c u ∈ (appendImages fetch hash pending).outputEntries →
      ∃ pre q post, pending = pre ++ q :: post ∧ q.2 = u ∧
        fetch q.2 = Except.ok c ∧
        ∀ r ∈ pre, ∀ c2, fetch r.2 = Except.ok c2 → hash c2 ≠ hash c) ∧
    (∀ p ∈ pending, ∀ c : Content, fetch p.2 = Except.ok c →
      ∃ fi c2 u,
        OutEntry.image fi c2 u ∈ (appendImages fetch hash pending).outputEntries ∧
        hash c2 = hash c) := by
  have hinv : ImgInv fetch hash pending (appendImages fetch hash pending) := by
    have h := imgInv_foldl fetch hash pending [] (imgInit Content γ)
      (imgInv_init fetch hash) (by simpa using hnd)
    simpa [appendImages] using h
  obtain ⟨hcnt, hseq, hmap1, hmap2, hfirst, hproc⟩ := hinv
  refine ⟨hseq, ?_, ?_, hfirst, ?_⟩
  · intro p hp q hq c c2 hc hc2 hh
    obtain ⟨fi, hip, hhp⟩ := hproc p hp
    obtain ⟨fi2, hiq, hhq⟩ := hproc q hq
    have e1 := hhp c hc
    have e2 := hhq c2 hc2
    rw [hh] at e1
    rw [e2] at e1
    injection e1 with hfi
    refine ⟨by rw [hip]; simp, ?_⟩
    rw [hip, hiq]
    exact congrArg some hfi.symm
  · intro fi fi2 c c2 u u2 hm1 hm2 hh
    have p1 := hmap2 fi c u hm1
    have p2 := hmap2 fi2 c2 u2 hm2
    rw [hh] at p1
    rw [p2] at p1
    injection p1 with hfi
    have hnodupmap :
        ((appendImages fetch hash pending).outputEntries.map
          OutEntry.finalIndex).Nodup := by
      rw [hseq]
      exact List.nodup_range' _ _
    have heq := List.inj_on_of_nodup_map hnodupmap hm1 hm2
      (by simp only [OutEntry.finalIndex]; exact hfi.symm)
    injection heq with q1 q2 q3
    exact ⟨q1, q2, q3⟩
  · intro p hp c hc
    obtain ⟨fi, hip, hh⟩ := hproc p hp
    obtain ⟨c2, u, hmem, hhash⟩ := hmap1 (hash c) fi (hh c hc)
    exact ⟨fi, c2, u, hmem, hhash⟩

/-- C5 witness: the dedup theorem applied at a concrete three-entry queue
in which entries 1 and 3 fetch equal content around a failing entry 2. -/
theorem claimC5_witness :
    (appendImages witnessFetch (fun c => c)
        [(1, "a"), (2, "bad"), (3, "a")]).indexMap 1 =
      (appendImages witnessFetch (fun c => c)
        [(1, "a"), (2, "bad"), (3, "a")]).indexMap 3 ∧
    (appendImages witnessFetch (fun c => c)
        [(1, "a"), (2, "bad"), (3, "a")]).outputEntries.map OutEntry.finalIndex =
      List.range' 1 (appendImages witnessFetch (fun c => c)
        [(1, "a"), (2, "bad"), (3, "a")]).outputEntries.length := by
  have h := claimC5_dedup_invariant Nat Nat witnessFetch (fun c => c)
    [(1, "a"), (2, "bad"), (3, "a")] (by decide)
  exact ⟨(h.2.1 (1, "a") (by decide) (3, "a") (by decide) 7 7 rfl rfl rfl).2, h.1⟩

/-- C8: a fetch failure during the finalize step appends an error entry
carrying the next sequential final index and the failure description, maps
the failing local index to that final index, leaves the dedup hash map
untouched, and blocks nothing: the fold continues over the remaining
entries (the fold over an append is the fold over the tail from the stepped
state), every pending entry ends up numbered in the local-to-final index
map whatever its fetch outcome, and the fold is total, so the session never
aborts. -/
theorem claimC8_fetch_failure_isolated (Content γ : Type) [DecidableEq γ]
    (fetch : String → Except String Content) (hash : Content → γ) :
    (∀ (st : ImgFinalState Content γ) (i : Nat) (u e : String),
      fetch u = Except.error e →
      (imgStep fetch hash st (i, u)).outputEntries =
        st.outputEntries ++ [OutEntry.error (st.finalCounter + 1) u e] ∧
      (imgStep fetch hash st (i, u)).indexMap i = some (st.finalCounter + 1) ∧
      (imgStep fetch hash st (i, u)).finalCounter = st.finalCounter + 1 ∧
      (∀ h : γ, (imgStep fetch hash st (i, u)).hashToFinalIndex h =
        st.hashToFinalIndex h)) ∧
    (∀ (pre post : List (Nat × String)) (entry : Nat × String),
      appendImages fetch hash (pre ++ entry :: post) =
        post.foldl (imgStep fetch hash)
          (imgStep fetch hash (appendImages fetch hash pre) entry)) ∧
    (∀ (pending : List (Nat × String)) (p : Nat × String), p ∈ pending →
      (appendImages fetch hash pending).indexMap p.1 ≠ none) := by
  refine ⟨?_, ?_, ?_⟩
  · intro st i u e hfe
    rw [imgStep_err fetch hash st (i, u) e hfe]
    exact ⟨rfl, by simp, rfl, fun h => rfl⟩
  · intro pre post entry
    simp [appendImages, List.foldl_append]
  · intro pending p hp
    obtain ⟨pre, post, rfl⟩ := List.append_of_mem hp
    have hdec : appendImages fetch hash (pre ++ p :: post) =
        post.foldl (imgStep fetch hash)
          (imgStep fetch hash (appendImages fetch hash pre) p) := by
      simp [appendImages, List.foldl_append]
    rw [hdec]
    exact imgFold_indexMap_ne_none_mono fetch hash post _ p.1
      (imgStep_numbers_own fetch hash _ p)

/-- C8 witness: the failure clause applied at the concrete failing url and
the numbering clause applied to an entry after the failure. -/
theorem claimC8_witness :
    (imgStep witnessFetch (fun c => c) (imgInit Nat Nat) (2, "bad")).outputEntries =
      [OutEntry.error 1 "bad" "boom"] ∧
    (imgStep witnessFetch (fun c => c) (imgInit Nat Nat) (2, "bad")).indexMap 2 =
      some 1 ∧
    (appendImages witnessFetch (fun c => c) [(2, "bad"), (3, "a")]).indexMap 3 ≠
      none := by
  have h := claimC8_fetch_failure_isolated Nat Nat witnessFetch (fun c => c)
  refine ⟨?_, ?_, ?_⟩
  · have h1 := (h.1 (imgInit Nat Nat) 2 "bad" "boom" rfl).1
    simpa [imgInit] using h1
  · exact (h.1 (imgInit Nat Nat) 2 "bad" "boom" rfl).2.1
  · exact h.2.2 [(2, "bad"), (3, "a")] (3, "a") (by decide)

end StoryExport
